import Mathlib

/-!
Verification of the `han` smart-meter (HAN/P1) telegram parser.

The development shallowly embeds the library's source:
* `obis.rs` (OBIS identifiers, body-line decoding, fixed-point magnitudes,
  timestamps) over `List Char`, modelling Rust `&str` at character
  granularity (all grammar characters are ASCII, where byte and character
  indexing coincide; theorems that quantify over arbitrary trailing
  characters carry an ASCII hypothesis so they assert nothing about the
  byte-level/character-level divergence on multi-byte characters);
* `read.rs` (CRC-16/ARC, `Readout::to_telegram`, the synchronous `Reader`
  and the incremental `AsyncReader`) over `List Nat`, modelling raw bytes.

Chunked input for the incremental reader is a `List (List Nat)`: each
`fill_buf` call of the underlying `BufRead` source exposes the current
chunk, `consume` advances inside it, and an empty result means end of
stream (so mid-stream chunks are nonempty).
-/

namespace Han

/-! ## Generic character-list operations (Rust `str` methods) -/

/-- Rust `str::split_once(c)`: split at the first occurrence of `c`,
the separator excluded from both parts. -/
def splitOnce (c : Char) : List Char → Option (List Char × List Char)
  | [] => none
  | b :: bs =>
    if b = c then some ([], bs)
    else (splitOnce c bs).map (fun p => (b :: p.1, p.2))

/-- Rust `str::rsplit_once(c)`: split at the last occurrence of `c`. -/
def rsplitOnce (c : Char) : List Char → Option (List Char × List Char)
  | [] => none
  | b :: bs =>
    match rsplitOnce c bs with
    | some p => some (b :: p.1, p.2)
    | none => if b = c then some ([], bs) else none

/-- Rust `str::split(c)`: the list of separator-free parts (at least one,
empty parts kept). -/
def splitChar (c : Char) : List Char → List (List Char)
  | [] => [[]]
  | b :: bs =>
    if b = c then [] :: splitChar c bs
    else
      match splitChar c bs with
      | [] => [[b]]
      | h :: t => (b :: h) :: t

/-- Reassemble the separator-joined tail of a `splitChar` result
(specification helper for the parse-characterization theorems). -/
def rebuild (c : Char) : List (List Char) → List Char
  | [] => []
  | q :: qs => c :: (q ++ rebuild c qs)

/-- Decimal value of an ASCII digit. -/
def digitVal (ch : Char) : Option Nat :=
  if '0' ≤ ch ∧ ch ≤ '9' then some (ch.toNat - 48) else none

/-- Accumulate decimal digits; fails on the first non-digit. -/
def parseDigitsAux (acc : Nat) : List Char → Option Nat
  | [] => some acc
  | ch :: rest =>
    match digitVal ch with
    | some d => parseDigitsAux (acc * 10 + d) rest
    | none => none

/-- Rust `str::parse` for an unsigned integer type, before the width
bound: an optional leading `+`, then one or more ASCII decimal digits
(a leading `-` on an unsigned type fails, as does the empty string). -/
def parseRustNat (l : List Char) : Option Nat :=
  let digits := if l.head? = some '+' then l.tail else l
  match digits with
  | [] => none
  | _ => parseDigitsAux 0 digits

/-- Rust `str::parse::<u8>()` (value bound 255). -/
def parseU8 (l : List Char) : Option Nat :=
  (parseRustNat l).bind fun n => if n ≤ 255 then some n else none

/-- `u32::MAX`. -/
def u32Max : Nat := 4294967295

/-- Rust `str::parse::<u32>()` (value bound `u32::MAX`). -/
def parseU32 (l : List Char) : Option Nat :=
  (parseRustNat l).bind fun n => if n ≤ u32Max then some n else none

/-- Rust `str::get(i..j)` at character granularity. -/
def strGetChars (s : List Char) (i j : Nat) : Option (List Char) :=
  if i ≤ j ∧ j ≤ s.length then some ((s.take j).drop i) else none

/-! ## `lib.rs`: the error type -/

/-- `han::Error`. -/
inductive Error where
  | InvalidFormat
  | Checksum
  | UnrecognizedReference
deriving DecidableEq

/-! ## `obis.rs`: data model -/

/-- `han::Line`: one conductor of a three-phase system. -/
inductive Line where
  | L1
  | L2
  | L3
deriving DecidableEq

/-- `han::Power`: active or reactive power. -/
inductive Power where
  | Active
  | Reactive
deriving DecidableEq

/-- `han::Direction` of the electricity flow. -/
inductive Direction where
  | FromGrid
  | ToGrid
deriving DecidableEq

/-- The `time::OffsetDateTime` value built by `parse_datetime`: a calendar
date and time with a fixed UTC offset in hours (1 = CET, 2 = CEST). -/
structure OffsetDateTime where
  year : Nat
  month : Nat
  day : Nat
  hour : Nat
  minute : Nat
  second : Nat
  offsetHours : Nat
deriving DecidableEq

/-- `han::Object`: a parsed body line of a telegram. -/
inductive Object where
  | DateTime (dt : OffsetDateTime)
  | Energy (p : Power) (d : Direction) (v : Nat)
  | TotalPower (p : Power) (d : Direction) (v : Nat)
  | Power (line : Line) (p : Power) (d : Direction) (v : Nat)
  | Voltage (line : Line) (v : Nat)
  | Current (line : Line) (v : Nat)
deriving DecidableEq

/-- `han::Obis`: an OBIS identifier `a-b:c.d.e` (five `u8` groups). -/
structure Obis where
  a : Nat
  b : Nat
  c : Nat
  d : Nat
  e : Nat
deriving DecidableEq

/-- The decimal digits of `n` (Rust `Display` for `u8`). -/
def natChars (n : Nat) : List Char := Nat.toDigits 10 n

/-- `impl Display for Obis`: `write!("{}-{}:{}.{}.{}", a, b, c, d, e)`. -/
def renderObis (o : Obis) : List Char :=
  natChars o.a ++ '-' :: (natChars o.b ++ ':' ::
    (natChars o.c ++ '.' :: (natChars o.d ++ '.' :: natChars o.e)))

/-- `Obis::from_str_opt`: split on `-`, then `:`, then take the first
three `.`-separated parts, each parsed as `u8`. -/
def Obis.fromStrOpt (s : List Char) : Option Obis :=
  match splitOnce '-' s with
  | none => none
  | some (sa, s1) =>
    match parseU8 sa with
    | none => none
    | some a =>
      match splitOnce ':' s1 with
      | none => none
      | some (sb, s2) =>
        match parseU8 sb with
        | none => none
        | some b =>
          match splitChar '.' s2 with
          | p1 :: p2 :: p3 :: _ =>
            match parseU8 p1, parseU8 p2, parseU8 p3 with
            | some c, some d, some e => some ⟨a, b, c, d, e⟩
            | _, _, _ => none
          | _ => none

/-- `impl FromStr for Obis`: `from_str_opt(s).ok_or(Error::InvalidFormat)`. -/
def Obis.fromStr (s : List Char) : Except Error Obis :=
  match Obis.fromStrOpt s with
  | some o => .ok o
  | none => .error .InvalidFormat

/-! ## `obis.rs`: magnitude parsing -/

/-- `split_value`: drop the trailing parenthesis (the last character,
unconditionally) and split the rest on the first `*` into scalar and
unit. -/
def splitValue (s : List Char) : Option (List Char × List Char) :=
  match s with
  | [] => none
  | _ => splitOnce '*' s.dropLast

/-- `parse_decimal::<F>`: scalar/unit split, split the scalar at the last
`.`, require exactly `F` fraction digits, parse both parts as `u32` and
combine as `i * 10^F + f` with checked arithmetic. -/
def parseDecimal (F : Nat) (s : List Char) : Option Nat :=
  match splitValue s with
  | none => none
  | some (decimal, _unit) =>
    match rsplitOnce '.' decimal with
    | none => none
    | some (ip, fp) =>
      if fp.length ≠ F then none
      else
        match parseU32 ip, parseU32 fp with
        | some iv, some fv =>
          if iv * 10 ^ F ≤ u32Max then
            if iv * 10 ^ F + fv ≤ u32Max then some (iv * 10 ^ F + fv) else none
          else none
        | _, _ => none

/-- `parse_kilo`: three fraction digits, `InvalidFormat` on failure. -/
def parseKilo (s : List Char) : Except Error Nat :=
  match parseDecimal 3 s with
  | some v => .ok v
  | none => .error .InvalidFormat

/-- `parse_deci`: one fraction digit, then `u16::try_from`,
`InvalidFormat` on failure. -/
def parseDeci (s : List Char) : Except Error Nat :=
  match parseDecimal 1 s with
  | some v => if v ≤ 65535 then .ok v else .error .InvalidFormat
  | none => .error .InvalidFormat

/-- `pow_dir`: decode the power kind and direction from the OBIS
C group (or its residue). -/
def powDir (a : Nat) : Except Error (Power × Direction) :=
  if a = 1 then .ok (.Active, .FromGrid)
  else if a = 2 then .ok (.Active, .ToGrid)
  else if a = 3 then .ok (.Reactive, .FromGrid)
  else if a = 4 then .ok (.Reactive, .ToGrid)
  else .error .InvalidFormat

/-! ## `obis.rs`: timestamp parsing -/

/-- Gregorian leap-year rule (as used by `time::Date`). -/
def isLeap (y : Nat) : Bool := y % 4 = 0 ∧ (y % 100 ≠ 0 ∨ y % 400 = 0)

/-- Number of days of month `m` (1-12) in year `y`
(`time::util::days_in_year_month`). -/
def daysInMonth (y m : Nat) : Nat :=
  if m = 2 then (if isLeap y then 29 else 28)
  else if m = 4 ∨ m = 6 ∨ m = 9 ∨ m = 11 then 30
  else 31

/-- The `match` on the two-character month token (`"01"` to `"12"`). -/
def monthFromChars : List Char → Option Nat
  | ['0', '1'] => some 1
  | ['0', '2'] => some 2
  | ['0', '3'] => some 3
  | ['0', '4'] => some 4
  | ['0', '5'] => some 5
  | ['0', '6'] => some 6
  | ['0', '7'] => some 7
  | ['0', '8'] => some 8
  | ['0', '9'] => some 9
  | ['1', '0'] => some 10
  | ['1', '1'] => some 11
  | ['1', '2'] => some 12
  | _ => none

/-- The closure `parsetwo`: `s.get(i..=i+1)` parsed as `u8`. -/
def parseTwoNum (s : List Char) (i : Nat) : Option Nat :=
  match strGetChars s i (i + 2) with
  | none => none
  | some two => parseU8 two

/-- `parse_datetime`: the 13-character body `YYMMDDhhmmss{W|S}`.
`Date::from_calendar_date` validates the day against the month and
(leap) year; `Time::from_hms` validates the clock fields; the final
character selects the fixed +1h/+2h UTC offset. -/
def parseDatetime (s : List Char) : Except Error OffsetDateTime :=
  match parseTwoNum s 0 with
  | none => .error .InvalidFormat
  | some yy =>
    match (strGetChars s 2 4).bind monthFromChars with
    | none => .error .InvalidFormat
    | some month =>
      match parseTwoNum s 4 with
      | none => .error .InvalidFormat
      | some day =>
        if 1 ≤ day ∧ day ≤ daysInMonth (2000 + yy) month then
          match parseTwoNum s 6, parseTwoNum s 8, parseTwoNum s 10 with
          | some hour, some minute, some second =>
            if hour ≤ 23 ∧ minute ≤ 59 ∧ second ≤ 59 then
              match strGetChars s 12 13 with
              | some offs =>
                if offs = ['W'] then
                  .ok ⟨2000 + yy, month, day, hour, minute, second, 1⟩
                else if offs = ['S'] then
                  .ok ⟨2000 + yy, month, day, hour, minute, second, 2⟩
                else .error .InvalidFormat
              | none => .error .InvalidFormat
            else .error .InvalidFormat
          | _, _, _ => .error .InvalidFormat
        else .error .InvalidFormat

/-! ## `obis.rs`: body-line decoding -/

/-- The dispatch on the parsed `Obis` tuple inside
`impl FromStr for Object` (the part after `split_once('(')`).
The Rust `match` guards make the inner `unreachable!` arms impossible,
so the corresponding residual branches here (`else` arms of the
line/kind selections) are never taken under the same guards. -/
def decode (o : Obis) (body : List Char) : Except Error Object :=
  if o = ⟨0, 0, 1, 0, 0⟩ then
    match parseDatetime body with
    | .ok dt => .ok (.DateTime dt)
    | .error e => .error e
  else if o.a = 1 ∧ o.b = 0 ∧ 1 ≤ o.c ∧ o.c ≤ 4 ∧ 7 ≤ o.d ∧ o.d ≤ 8 ∧ o.e = 0 then
    match powDir o.c with
    | .error e => .error e
    | .ok (pow, dir) =>
      if o.d = 7 then
        match parseKilo body with
        | .ok v => .ok (.TotalPower pow dir v)
        | .error e => .error e
      else
        match parseKilo body with
        | .ok v => .ok (.Energy pow dir v)
        | .error e => .error e
  else if o.a = 1 ∧ o.b = 0 ∧
      ((21 ≤ o.c ∧ o.c ≤ 24) ∨ (41 ≤ o.c ∧ o.c ≤ 44) ∨ (61 ≤ o.c ∧ o.c ≤ 64)) ∧
      o.d = 7 ∧ o.e = 0 then
    let line : Line :=
      if o.c / 20 = 1 then .L1 else if o.c / 20 = 2 then .L2 else .L3
    match powDir (o.c % 20) with
    | .error e => .error e
    | .ok (pow, dir) =>
      match parseKilo body with
      | .ok v => .ok (.Power line pow dir v)
      | .error e => .error e
  else if o.a = 1 ∧ o.b = 0 ∧
      (o.c = 31 ∨ o.c = 32 ∨ o.c = 51 ∨ o.c = 52 ∨ o.c = 71 ∨ o.c = 72) ∧
      o.d = 7 ∧ o.e = 0 then
    let line : Line :=
      if o.c ≤ 32 then .L1 else if o.c ≤ 52 then .L2 else .L3
    if o.c % 10 = 1 then
      match parseDeci body with
      | .ok v => .ok (.Current line v)
      | .error e => .error e
    else
      match parseDeci body with
      | .ok v => .ok (.Voltage line v)
      | .error e => .error e
  else .error .UnrecognizedReference

/-- The decode-table membership predicate: the `Obis` tuples covered by
the non-default arms of the dispatch above. -/
def matchesTable (o : Obis) : Prop :=
  o = ⟨0, 0, 1, 0, 0⟩ ∨
  (o.a = 1 ∧ o.b = 0 ∧ 1 ≤ o.c ∧ o.c ≤ 4 ∧ 7 ≤ o.d ∧ o.d ≤ 8 ∧ o.e = 0) ∨
  (o.a = 1 ∧ o.b = 0 ∧
    ((21 ≤ o.c ∧ o.c ≤ 24) ∨ (41 ≤ o.c ∧ o.c ≤ 44) ∨ (61 ≤ o.c ∧ o.c ≤ 64)) ∧
    o.d = 7 ∧ o.e = 0) ∨
  (o.a = 1 ∧ o.b = 0 ∧
    (o.c = 31 ∨ o.c = 32 ∨ o.c = 51 ∨ o.c = 52 ∨ o.c = 71 ∨ o.c = 72) ∧
    o.d = 7 ∧ o.e = 0)

instance (o : Obis) : Decidable (matchesTable o) := by
  unfold matchesTable; infer_instance

/-- `impl FromStr for Object`: split on the first `(`, parse the OBIS
part, then dispatch. -/
def Object.fromStr (s : List Char) : Except Error Object :=
  match splitOnce '(' s with
  | none => .error .InvalidFormat
  | some (obisStr, body) =>
    match Obis.fromStrOpt obisStr with
    | none => .error .InvalidFormat
    | some o => decode o body

/-! ## `read.rs`: CRC-16/ARC (`crc16::State::<crc16::ARC>::calculate`) -/

/-- One shift round of CRC-16/ARC: reflected polynomial `0xA001`. -/
def crcShift (s : Nat) : Nat :=
  if s % 2 = 1 then (s / 2) ^^^ 0xA001 else s / 2

/-- Feed one byte into the CRC state: xor it in, then eight shift
rounds. -/
def crcByte (s b : Nat) : Nat :=
  crcShift (crcShift (crcShift (crcShift (crcShift (crcShift (crcShift (crcShift (s ^^^ b))))))))

/-- CRC-16/ARC of a byte sequence (initial value 0, no final xor). -/
def crc16 (l : List Nat) : Nat := l.foldl crcByte 0

/-! ## `read.rs`: UTF-8 validity (`core::str::from_utf8`) -/

/-- A UTF-8 continuation byte (`0b10xxxxxx`). -/
def isCont (b : Nat) : Bool := 128 ≤ b ∧ b ≤ 191

mutual

/-- Standard UTF-8 validation of a byte sequence. -/
def utf8Valid : List Nat → Bool
  | [] => true
  | b :: rest => if b ≤ 127 then utf8Valid rest else utf8Multi b rest

/-- Validation of one multi-byte UTF-8 sequence led by `b`, followed by
the rest of the bytes. -/
def utf8Multi (b : Nat) : List Nat → Bool
  | c1 :: r =>
    if 194 ≤ b ∧ b ≤ 223 then isCont c1 && utf8Valid r
    else if b = 224 then
      match r with
      | c2 :: r2 => (decide (160 ≤ c1 ∧ c1 ≤ 191)) && isCont c2 && utf8Valid r2
      | _ => false
    else if (225 ≤ b ∧ b ≤ 236) ∨ b = 238 ∨ b = 239 then
      match r with
      | c2 :: r2 => isCont c1 && isCont c2 && utf8Valid r2
      | _ => false
    else if b = 237 then
      match r with
      | c2 :: r2 => (decide (128 ≤ c1 ∧ c1 ≤ 159)) && isCont c2 && utf8Valid r2
      | _ => false
    else if b = 240 then
      match r with
      | c2 :: c3 :: r3 =>
        (decide (144 ≤ c1 ∧ c1 ≤ 191)) && isCont c2 && isCont c3 && utf8Valid r3
      | _ => false
    else if 241 ≤ b ∧ b ≤ 243 then
      match r with
      | c2 :: c3 :: r3 => isCont c1 && isCont c2 && isCont c3 && utf8Valid r3
      | _ => false
    else if b = 244 then
      match r with
      | c2 :: c3 :: r3 =>
        (decide (128 ≤ c1 ∧ c1 ≤ 143)) && isCont c2 && isCont c3 && utf8Valid r3
      | _ => false
    else false
  | [] => false

end

/-- Rust `str::is_char_boundary(k)` on the underlying bytes. -/
def charBnd (l : List Nat) (k : Nat) : Bool :=
  decide (k = 0) ||
    match l.get? k with
    | some b => !isCont b
    | none => decide (k = l.length)

/-- Rust `str::get(i..j)`, at byte granularity with boundary checks. -/
def byteGet (l : List Nat) (i j : Nat) : Option (List Nat) :=
  if i ≤ j ∧ charBnd l i ∧ charBnd l j then some ((l.take j).drop i) else none

/-- Index of the first occurrence of byte `t` (Rust `str::find` for an
ASCII needle returns its byte index). -/
def findByte (t : Nat) : List Nat → Option Nat
  | [] => none
  | b :: bs => if b = t then some 0 else (findByte t bs).map (· + 1)

/-- Rust `str::split_once(pattern)` for a multi-byte pattern: split at
the first occurrence, the pattern excluded. -/
def splitOnceSeq (pat : List Nat) : List Nat → Option (List Nat × List Nat)
  | [] => if pat = [] then some ([], []) else none
  | b :: bs =>
    if List.isPrefixOf pat (b :: bs) then some ([], (b :: bs).drop pat.length)
    else (splitOnceSeq pat bs).map (fun p => (b :: p.1, p.2))

/-- Hexadecimal value of an ASCII byte. -/
def hexVal (b : Nat) : Option Nat :=
  if 48 ≤ b ∧ b ≤ 57 then some (b - 48)
  else if 97 ≤ b ∧ b ≤ 102 then some (b - 87)
  else if 65 ≤ b ∧ b ≤ 70 then some (b - 55)
  else none

/-- Accumulate hexadecimal digits; fails on the first non-digit. -/
def parseHexAux (acc : Nat) : List Nat → Option Nat
  | [] => some acc
  | b :: rest =>
    match hexVal b with
    | some d => parseHexAux (acc * 16 + d) rest
    | none => none

/-- Rust `u16::from_str_radix(s, 16)`: optional leading `+`, one or more
hex digits (big-endian, either case), value bound `u16::MAX`. -/
def parseHexU16 (l : List Nat) : Option Nat :=
  let digits := if l.head? = some 43 then l.tail else l
  match digits with
  | [] => none
  | _ => (parseHexAux 0 digits).bind fun n => if n ≤ 65535 then some n else none

/-! ## `read.rs`: readouts and telegrams -/

/-- `han::Readout`: the fixed 2048-byte frame buffer. -/
structure Readout where
  bytes : List Nat
deriving DecidableEq

/-- Build the `Readout` handed to the caller: the written bytes followed
by the untouched zero-initialised remainder of the 2048-byte array. -/
def mkReadout (data : List Nat) : Readout :=
  ⟨data ++ List.replicate (2048 - data.length) 0⟩

/-- `han::Telegram`: the validated view over a readout. -/
structure Telegram where
  checksum : Nat
  flagId : List Nat
  identification : List Nat
  objectBuffer : List Nat
deriving DecidableEq

/-- The header/body split performed by `Readout::to_telegram` once the
checksum matched: split the pre-checksum buffer on the first
`\r\n\r\n`, take header bytes `[1..4)` as the flag id and `[5..)` as
the identification, and the body minus its trailing 3 bytes as the
object buffer. -/
def postChecksumSplit (checksum : Nat) (buffer : List Nat) : Except Error Telegram :=
  match splitOnceSeq [13, 10, 13, 10] buffer with
  | none => .error .InvalidFormat
  | some (header, body) =>
    match byteGet header 1 4 with
    | none => .error .InvalidFormat
    | some flag =>
      match byteGet header 5 header.length with
      | none => .error .InvalidFormat
      | some ident =>
        if 3 ≤ body.length then
          match byteGet body 0 (body.length - 3) with
          | none => .error .InvalidFormat
          | some ob => .ok ⟨checksum, flag, ident, ob⟩
        else .error .InvalidFormat

/-- `Readout::to_telegram`: UTF-8 check, locate the first `!`, parse the
4 bytes after it as big-endian hex, compare with the CRC-16/ARC of
everything up to and including the `!`, then split header and body. -/
def toTelegram (r : Readout) : Except Error Telegram :=
  if utf8Valid r.bytes then
    match findByte 33 r.bytes with
    | none => .error .InvalidFormat
    | some p =>
      let buffer := r.bytes.take (p + 1)
      let tailPart := r.bytes.drop (p + 1)
      match byteGet tailPart 0 4 with
      | none => .error .InvalidFormat
      | some four =>
        match parseHexU16 four with
        | none => .error .InvalidFormat
        | some received =>
          let checksum := crc16 buffer
          if received ≠ checksum then .error .Checksum
          else postChecksumSplit checksum buffer
  else .error .InvalidFormat

/-! ## `read.rs`: the synchronous `Reader` -/

/-- The opening `while self.iter.next()? != b'/' {}` loop: consume bytes
up to and including the first `/`, returning the remainder. -/
def skipToSlash : List Nat → Option (List Nat)
  | [] => none
  | b :: bs => if b = 47 then some bs else skipToSlash bs

/-- The `write` closure: fail once 2048 bytes have been written. -/
def writeSync (buf : List Nat) (b : Nat) : Option (List Nat) :=
  if 2048 ≤ buf.length then none else some (buf ++ [b])

/-- The copy loop of `Reader::next`: write each byte; after writing a
`!`, take exactly four more bytes (failing if the iterator ends or the
buffer is full, exactly as the interleaved next/write steps do) and
yield the readout together with the unconsumed remainder. -/
def fillSync (buf : List Nat) : List Nat → Option (Readout × List Nat)
  | [] => none
  | b :: bs =>
    match writeSync buf b with
    | none => none
    | some buf1 =>
      if b = 33 then
        match bs with
        | b1 :: b2 :: b3 :: b4 :: rest =>
          match writeSync buf1 b1 with
          | none => none
          | some buf2 =>
            match writeSync buf2 b2 with
            | none => none
            | some buf3 =>
              match writeSync buf3 b3 with
              | none => none
              | some buf4 =>
                match writeSync buf4 b4 with
                | none => none
                | some buf5 => some (mkReadout buf5, rest)
        | _ => none
      else fillSync buf1 bs

/-- One call of `<Reader as Iterator>::next` on the remaining input,
returning the yielded readout and the unconsumed input. -/
def readerNext (l : List Nat) : Option (Readout × List Nat) :=
  match skipToSlash l with
  | none => none
  | some rest => fillSync [47] rest

/-! ## `read.rs`: the incremental `AsyncReader`

The `BufRead` source is modelled as a list of chunks: `fill_buf`
exposes the head chunk, `consume` drops bytes inside it, and an empty
`fill_buf` result (the empty chunk, or no chunks left) is end of
stream. -/

/-- The persisted `Buffer` state: the bytes written so far (`pos` is
their number; the 2048-byte array is zero beyond them) and the recorded
expected length, set once a `!` has been written. -/
structure BufState where
  data : List Nat
  len : Option Nat
deriving DecidableEq

/-- `buffer.pos >= buffer.data.len()`: the overflow test. -/
def overflowed (st : BufState) : Bool := 2048 ≤ st.data.length

/-- `buffer.len.is_some_and(|len| buffer.pos >= len)`: the completion
test (checked after writing the current byte, before `pos` advances). -/
def completedSt (st : BufState) : Bool :=
  match st.len with
  | some l => l ≤ st.data.length
  | none => false

/-- Write one byte: append it and, if it is `!`, record the expected
final length `pos + 4`. -/
def pushByte (st : BufState) (b : Nat) : BufState :=
  ⟨st.data ++ [b], if b = 33 then some (st.data.length + 4) else st.len⟩

/-- Total number of bytes remaining in the chunked source. -/
def totalBytes (chunks : List (List Nat)) : Nat := (chunks.map List.length).sum

/-- `scan_to_next`: discard data up to (but not including) the first `/`,
returning the remaining source positioned at the `/`, or `none` at end
of stream. -/
def scanToNext : List (List Nat) → Option (List (List Nat))
  | [] => none
  | c :: rest =>
    if c = [] then none
    else
      match findByte 47 c with
      | some i => some (c.drop i :: rest)
      | none => scanToNext rest

/-- Outcome of the `'fill_buf` loop. -/
inductive FillResult where
  | eof
  | overflow (rest : List (List Nat))
  | frame (r : Readout) (rest : List (List Nat))
deriving DecidableEq

/-- The `for (i, &b) in buf.iter().enumerate()` loop over one chunk:
either the chunk is exhausted (`inl`, with the new buffer state), or an
overflow or completed frame occurs at some byte, which — matching
`self.reader.consume(i)` — leaves that byte and everything after it
unconsumed. -/
def fillBytes (st : BufState) : List Nat → BufState ⊕ ((Option Readout) × List Nat)
  | [] => .inl st
  | b :: bs =>
    if overflowed st then .inr (none, b :: bs)
    else if completedSt st then .inr (some (mkReadout (st.data ++ [b])), b :: bs)
    else fillBytes (pushByte st b) bs

/-- The `'fill_buf` loop of `next_readout`: repeatedly `fill_buf` and
process the exposed chunk until end of stream, an overflow (buffer
reset, remaining source returned) or a completed frame. -/
def fillLoop (st : BufState) : List (List Nat) → FillResult
  | [] => .eof
  | c :: rest =>
    if c = [] then .eof
    else
      match fillBytes st c with
      | .inl st1 => fillLoop st1 rest
      | .inr (none, leftover) => .overflow (leftover :: rest)
      | .inr (some r, leftover) => .frame r (leftover :: rest)

/-- The outer `loop` of `next_readout` starting from `self.buffer = None`
(the state on a fresh reader and after every yielded frame): scan to the
next `/`, fill from a fresh `Buffer::new()`, and on overflow resume
scanning within the remaining source. The `fuel` argument only bounds the
overflow-resume recursion; `nextFromIdle_fuel` below shows any fuel
beyond the remaining byte count gives the same (fuel-free) result. -/
def nextFromIdleF : Nat → List (List Nat) → Option (Readout × List (List Nat))
  | 0, _ => none
  | fuel + 1, chunks =>
    match scanToNext chunks with
    | none => none
    | some rest =>
      match fillLoop ⟨[], none⟩ rest with
      | .eof => none
      | .frame r out => some (r, out)
      | .overflow out => nextFromIdleF fuel out

/-- Repeated `next_readout` calls until `None`, collecting every yielded
readout, with the same always-sufficient fuel discipline. -/
def readAllF : Nat → List (List Nat) → List Readout
  | 0, _ => []
  | fuel + 1, chunks =>
    match nextFromIdleF (totalBytes chunks + 1) chunks with
    | none => []
    | some (r, out) => r :: readAllF fuel out

/-- The sequence of readouts the incremental reader yields for a chunked
source, starting from a fresh reader. -/
def readAll (chunks : List (List Nat)) : List Readout :=
  readAllF (totalBytes chunks + 1) chunks

/-! ## Byte-at-a-time reference machine

`byteStep` is the per-byte transition the chunked loops perform; it is
the yardstick both the one-chunk and the many-chunk runs are compared
against.  A byte that triggers an overflow or completes a frame is left
unconsumed by the Rust code (`consume(i)`) and re-examined by the
`/`-scan, which `byteStep` folds into the same step. -/

/-- Processing one byte in the idle (scanning) state: a `/` starts a
fresh buffer and is itself written as byte 0. -/
def idleNext (b : Nat) : Option BufState :=
  if b = 47 then some ⟨[47], none⟩ else none

/-- One byte of the incremental scanner: returns the next state and the
readout completed by this byte, if any. -/
def byteStep (s : Option BufState) (b : Nat) : Option BufState × Option Readout :=
  match s with
  | none => (idleNext b, none)
  | some st =>
    if overflowed st then (idleNext b, none)
    else if completedSt st then (idleNext b, some (mkReadout (st.data ++ [b])))
    else (some (pushByte st b), none)

/-- Run the byte machine over a byte sequence, collecting the completed
readouts (a partial frame at end of input yields nothing). -/
def runBytes (s : Option BufState) : List Nat → List Readout
  | [] => []
  | b :: bs =>
    match byteStep s b with
    | (s1, some r) => r :: runBytes s1 bs
    | (s1, none) => runBytes s1 bs

/-! # Theorems

Helper lemmas first, then one named theorem (plus witness or
counterexample) per specification claim. -/

/-! ## Splitting lemmas -/

theorem splitOnce_append (c : Char) (xs ys : List Char) (h : c ∉ xs) :
    splitOnce c (xs ++ c :: ys) = some (xs, ys) := by
  induction xs with
  | nil => simp [splitOnce]
  | cons b bs ih =>
    have hb : b ≠ c := fun hbc => h (hbc ▸ List.mem_cons_self b bs)
    have hc : c ∉ bs := fun hcm => h (List.mem_cons_of_mem b hcm)
    simp only [List.cons_append, splitOnce, if_neg hb, List.append_eq]
    rw [ih hc]
    rfl

theorem splitOnce_sound (c : Char) :
    ∀ s x y, splitOnce c s = some (x, y) → s = x ++ c :: y ∧ c ∉ x := by
  intro s
  induction s with
  | nil => intro x y h; simp [splitOnce] at h
  | cons b bs ih =>
    intro x y h
    by_cases hb : b = c
    · subst hb
      simp [splitOnce] at h
      obtain ⟨hx, hy⟩ := h
      subst hx; subst hy; simp
    · simp only [splitOnce, if_neg hb] at h
      match hs : splitOnce c bs with
      | none => rw [hs] at h; simp at h
      | some (x', y') =>
        rw [hs] at h
        simp at h
        obtain ⟨hx, hy⟩ := h
        obtain ⟨hbs, hnx⟩ := ih x' y' hs
        subst hx; subst hy; subst hbs
        refine ⟨by simp, ?_⟩
        intro hmem
        rcases List.mem_cons.mp hmem with h1 | h2
        · exact hb h1.symm
        · exact hnx h2

theorem rsplitOnce_none (c : Char) : ∀ l, c ∉ l → rsplitOnce c l = none := by
  intro l
  induction l with
  | nil => intro _; rfl
  | cons b bs ih =>
    intro h
    have hb : b ≠ c := fun hbc => h (hbc ▸ List.mem_cons_self b bs)
    have hc : c ∉ bs := fun hcm => h (List.mem_cons_of_mem b hcm)
    simp only [rsplitOnce, ih hc, if_neg hb]

theorem rsplitOnce_append (c : Char) (xs ys : List Char) (h : c ∉ ys) :
    rsplitOnce c (xs ++ c :: ys) = some (xs, ys) := by
  induction xs with
  | nil =>
    simp [List.nil_append, rsplitOnce, rsplitOnce_none c ys h]
  | cons b bs ih =>
    simp only [List.cons_append, rsplitOnce, List.append_eq]
    rw [ih]

theorem splitChar_ne_nil (c : Char) : ∀ s, splitChar c s ≠ [] := by
  intro s
  induction s with
  | nil => simp [splitChar]
  | cons b bs ih =>
    by_cases hb : b = c
    · simp [splitChar, hb]
    · simp only [splitChar, if_neg hb]
      match hs : splitChar c bs with
      | [] => simp
      | h :: t => simp

theorem splitChar_no (c : Char) : ∀ s, c ∉ s → splitChar c s = [s] := by
  intro s
  induction s with
  | nil => intro _; rfl
  | cons b bs ih =>
    intro h
    have hb : b ≠ c := fun hbc => h (hbc ▸ List.mem_cons_self b bs)
    have hc : c ∉ bs := fun hcm => h (List.mem_cons_of_mem b hcm)
    simp only [splitChar, if_neg hb, ih hc]

theorem splitChar_append (c : Char) (xs t : List Char) (h : c ∉ xs) :
    splitChar c (xs ++ c :: t) = xs :: splitChar c t := by
  induction xs with
  | nil => simp [splitChar]
  | cons b bs ih =>
    have hb : b ≠ c := fun hbc => h (hbc ▸ List.mem_cons_self b bs)
    have hc : c ∉ bs := fun hcm => h (List.mem_cons_of_mem b hcm)
    simp only [List.cons_append, splitChar, if_neg hb, List.append_eq]
    rw [ih hc]

theorem splitChar_sound (c : Char) :
    ∀ s p ps, splitChar c s = p :: ps →
      s = p ++ rebuild c ps ∧ ∀ q ∈ p :: ps, c ∉ q := by
  intro s
  induction s with
  | nil =>
    intro p ps h
    simp [splitChar] at h
    obtain ⟨hp, hps⟩ := h
    subst hp; subst hps
    exact ⟨rfl, by simp⟩
  | cons b bs ih =>
    intro p ps h
    by_cases hb : b = c
    · subst hb
      simp only [splitChar, if_pos rfl] at h
      match hs : splitChar b bs with
      | p' :: ps' =>
        rw [hs] at h
        injection h with h1 h2
        subst h1; subst h2
        obtain ⟨hbs, hmem⟩ := ih p' ps' hs
        refine ⟨by simp [rebuild, hbs], ?_⟩
        intro q hq
        rcases List.mem_cons.mp hq with h1 | h2
        · subst h1; simp
        · exact hmem q h2
      | [] => exact absurd hs (splitChar_ne_nil b bs)
    · simp only [splitChar, if_neg hb] at h
      match hs : splitChar c bs with
      | p' :: ps' =>
        rw [hs] at h
        injection h with h1 h2
        subst h1; subst h2
        obtain ⟨hbs, hmem⟩ := ih p' ps' hs
        constructor
        · simp [hbs]
        · intro q hq
          rcases List.mem_cons.mp hq with h1 | h2
          · subst h1
            intro hcm
            rcases List.mem_cons.mp hcm with h3 | h4
            · exact hb h3.symm
            · exact hmem p' (List.mem_cons_self p' ps') h4
          · exact hmem q (List.mem_cons_of_mem p' h2)
      | [] => exact absurd hs (splitChar_ne_nil c bs)

/-- The tail rebuilt by `rebuild` is empty or starts with the
separator. -/
theorem rebuild_shape (c : Char) (ps : List (List Char)) :
    rebuild c ps = [] ∨ ∃ t, rebuild c ps = c :: t := by
  cases ps with
  | nil => exact Or.inl rfl
  | cons q qs => exact Or.inr ⟨q ++ rebuild c qs, rfl⟩

/-! ## Digit lemmas -/

set_option maxRecDepth 4000

/-- Rendering a `u8` yields only decimal digits and parses back to the
same value. -/
theorem natChars_parse : ∀ n : Fin 256,
    parseU8 (natChars n.val) = some n.val ∧ (natChars n.val).all Char.isDigit = true := by
  decide

theorem digit_ne_sep (ch : Char) (h : ch.isDigit = true) :
    ch ≠ '-' ∧ ch ≠ ':' ∧ ch ≠ '.' ∧ ch ≠ '*' ∧ ch ≠ '(' := by
  refine ⟨?_, ?_, ?_, ?_, ?_⟩ <;>
    (intro he; subst he; exact absurd h (by decide))

theorem not_mem_of_all_digits (c : Char) (hc : c.isDigit = false)
    (l : List Char) (h : l.all Char.isDigit = true) : c ∉ l := by
  intro hm
  have := List.all_eq_true.mp h c hm
  rw [hc] at this
  exact Bool.false_ne_true this

theorem natChars_parse_nat (n : Nat) (h : n ≤ 255) :
    parseU8 (natChars n) = some n ∧ (natChars n).all Char.isDigit = true := by
  have := natChars_parse ⟨n, by omega⟩
  simpa using this

/-! ## C9: Obis display/parse round-trip -/

/-- C9: for every 5-tuple of bytes, formatting the Obis as `a-b:c.d.e`
and re-parsing the resulting string succeeds and yields the same
tuple. -/
theorem obis_roundtrip (o : Obis) (ha : o.a ≤ 255) (hb : o.b ≤ 255)
    (hc : o.c ≤ 255) (hd : o.d ≤ 255) (he : o.e ≤ 255) :
    Obis.fromStrOpt (renderObis o) = some o := by
  obtain ⟨pa, da⟩ := natChars_parse_nat o.a ha
  obtain ⟨pb, db⟩ := natChars_parse_nat o.b hb
  obtain ⟨pc, dc⟩ := natChars_parse_nat o.c hc
  obtain ⟨pd, dd⟩ := natChars_parse_nat o.d hd
  obtain ⟨pe, de⟩ := natChars_parse_nat o.e he
  unfold renderObis Obis.fromStrOpt
  rw [splitOnce_append '-' _ _ (not_mem_of_all_digits '-' (by decide) _ da)]
  dsimp only
  rw [pa]
  dsimp only
  rw [splitOnce_append ':' _ _ (not_mem_of_all_digits ':' (by decide) _ db)]
  dsimp only
  rw [pb]
  dsimp only
  rw [splitChar_append '.' _ _ (not_mem_of_all_digits '.' (by decide) _ dc),
    splitChar_append '.' _ _ (not_mem_of_all_digits '.' (by decide) _ dd),
    splitChar_no '.' _ (not_mem_of_all_digits '.' (by decide) _ de)]
  dsimp only
  rw [pc, pd, pe]

/-- C9 witness: the round-trip at the extreme concrete tuple. -/
theorem obis_roundtrip_witness :
    Obis.fromStrOpt (renderObis ⟨255, 255, 255, 255, 255⟩) = some ⟨255, 255, 255, 255, 255⟩ :=
  obis_roundtrip ⟨255, 255, 255, 255, 255⟩ (by decide) (by decide) (by decide)
    (by decide) (by decide)

/-! ## C8: the accepted Obis grammar (corrected) -/

/-- C8 counterexample: `1-0:1.8.0.5` lies outside the grammar
`u8-u8:u8.u8.u8` (it has a fourth dot-component), yet parsing yields
the Obis value built from the first three components rather than
`InvalidFormat`. -/
theorem obis_extra_component_cx :
    Obis.fromStrOpt (String.toList "1-0:1.8.0.5") = some ⟨1, 0, 1, 8, 0⟩ := by rfl

/-- C8 amended: a parse succeeds exactly on strings of the shape
`sa-sb:p1.p2.p3⟨tail⟩` where the five components parse as Rust `u8`
values (an optional leading `+` and leading zeros are accepted) and the
tail is empty or a further run of `.`-separated components, which is
ignored; missing separators or components and non-parseable components
yield `none` (hence `InvalidFormat`). -/
theorem obis_parse_characterized :
    (∀ s o, Obis.fromStrOpt s = some o →
      ∃ sa sb p1 p2 p3 tail,
        s = sa ++ '-' :: (sb ++ ':' :: (p1 ++ '.' :: (p2 ++ '.' :: (p3 ++ tail)))) ∧
        '-' ∉ sa ∧ ':' ∉ sb ∧ '.' ∉ p1 ∧ '.' ∉ p2 ∧ '.' ∉ p3 ∧
        (tail = [] ∨ ∃ t, tail = '.' :: t) ∧
        parseU8 sa = some o.a ∧ parseU8 sb = some o.b ∧
        parseU8 p1 = some o.c ∧ parseU8 p2 = some o.d ∧ parseU8 p3 = some o.e) ∧
    (∀ sa sb p1 p2 p3 tail a b c d e,
      '-' ∉ sa → ':' ∉ sb → '.' ∉ p1 → '.' ∉ p2 → '.' ∉ p3 →
      (tail = [] ∨ ∃ t, tail = '.' :: t) →
      parseU8 sa = some a → parseU8 sb = some b →
      parseU8 p1 = some c → parseU8 p2 = some d → parseU8 p3 = some e →
      Obis.fromStrOpt (sa ++ '-' :: (sb ++ ':' :: (p1 ++ '.' :: (p2 ++ '.' :: (p3 ++ tail)))))
        = some ⟨a, b, c, d, e⟩) := by
  constructor
  · intro s o h
    unfold Obis.fromStrOpt at h
    split at h
    · exact absurd h (by simp)
    rename_i sa s1 hsp1
    split at h
    · exact absurd h (by simp)
    rename_i a hpa
    split at h
    · exact absurd h (by simp)
    rename_i sb s2 hsp2
    split at h
    · exact absurd h (by simp)
    rename_i b hpb
    split at h
    · rename_i p1 p2 p3 rest hsc
      split at h
      · rename_i c d e hc hd he
        injection h with h1
        subst h1
        obtain ⟨hs1, hnsa⟩ := splitOnce_sound '-' s sa s1 hsp1
        obtain ⟨hs2, hnsb⟩ := splitOnce_sound ':' s1 sb s2 hsp2
        obtain ⟨hrebuild, hnd⟩ := splitChar_sound '.' s2 p1 (p2 :: p3 :: rest) hsc
        refine ⟨sa, sb, p1, p2, p3, rebuild '.' rest, ?_, hnsa, hnsb,
          hnd p1 (by simp), hnd p2 (by simp), hnd p3 (by simp),
          rebuild_shape '.' rest, hpa, hpb, hc, hd, he⟩
        subst hs1; subst hs2
        simp only [hrebuild, rebuild]
      · exact absurd h (by simp)
    · exact absurd h (by simp)
  · intro sa sb p1 p2 p3 tail a b c d e hnsa hnsb hn1 hn2 hn3 htail hpa hpb hp1 hp2 hp3
    unfold Obis.fromStrOpt
    rw [splitOnce_append '-' _ _ hnsa]
    dsimp only
    rw [hpa]
    dsimp only
    rw [splitOnce_append ':' _ _ hnsb]
    dsimp only
    rw [hpb]
    dsimp only
    rcases htail with rfl | ⟨t, rfl⟩
    · rw [List.append_nil,
        splitChar_append '.' _ _ hn1, splitChar_append '.' _ _ hn2,
        splitChar_no '.' _ hn3]
      dsimp only
      rw [hp1, hp2, hp3]
    · rw [splitChar_append '.' _ _ hn1, splitChar_append '.' _ _ hn2,
        splitChar_append '.' _ _ hn3]
      dsimp only
      rw [hp1, hp2, hp3]

/-- C8 witness: the amended characterization applied at a concrete
decomposition. -/
theorem obis_parse_characterized_witness :
    Obis.fromStrOpt (['1'] ++ '-' :: (['0'] ++ ':' :: (['2'] ++ '.' :: (['8'] ++ '.' :: (['1'] ++ [])))))
      = some ⟨1, 0, 2, 8, 1⟩ :=
  obis_parse_characterized.2 ['1'] ['0'] ['2'] ['8'] ['1'] [] 1 0 2 8 1
    (by decide) (by decide) (by decide) (by decide) (by decide) (Or.inl rfl)
    (by decide) (by decide) (by decide) (by decide) (by decide)

/-! ## C10: the unchecked trailing character -/

theorem dropLast_app (l : List Char) (c : Char) : (l ++ [c]).dropLast = l := by
  simp

/-- `split_value` of a nonempty payload drops exactly the last
character, whatever it is. -/
theorem splitValue_ne (s : List Char) (h : s ≠ []) :
    splitValue s = splitOnce '*' s.dropLast := by
  cases s with
  | nil => exact absurd rfl h
  | cons b bs => rfl

/-- C10: magnitude parsing strips the final character of the payload
unconditionally — the result never depends on what that character is —
so the payload `235.5*V`, which lacks the closing parenthesis (its
final `V` is stripped as though it were the trailer, leaving an empty
unit), parses to the same value as the well-formed `235.5*V)`. -/
theorem trailing_char_unchecked :
    (∀ (F : Nat) (s : List Char) (c c' : Char), c.toNat < 128 → c'.toNat < 128 →
      parseDecimal F (s ++ [c]) = parseDecimal F (s ++ [c'])) ∧
    parseDecimal 1 (String.toList "235.5*V") = some 2355 ∧
    parseDecimal 1 (String.toList "235.5*V)") = some 2355 := by
  refine ⟨?_, rfl, rfl⟩
  intro F s c c' _ _
  unfold parseDecimal
  rw [splitValue_ne _ (by simp), splitValue_ne _ (by simp), dropLast_app, dropLast_app]

/-- C10 witness: replacing the final `)` with a second `V` leaves the
parse result unchanged. -/
theorem trailing_char_unchecked_witness :
    parseDecimal 1 (String.toList "235.5*V" ++ [')'])
      = parseDecimal 1 (String.toList "235.5*V" ++ ['V']) :=
  trailing_char_unchecked.1 1 (String.toList "235.5*V") ')' 'V' (by decide) (by decide)

/-! ## C2: magnitude digit counts (corrected) -/

/-- C2 counterexample: with the declared 8-integer-digit energy layout,
an integer part of only 7 digits (`0006136`) is claimed to fail with
`InvalidFormat`, but the whole line still decodes successfully — the
integer-digit count is never checked. -/
theorem magnitude_int_digits_cx :
    Object.fromStr (String.toList "1-0:1.8.0(0006136.930*kWh)")
      = .ok (.Energy .Active .FromGrid 6136930) := by rfl

/-- C2 amended: only the fraction-digit count is enforced.  A payload
`ip.fp*unit⟨last⟩` with decimal-digit parts parses exactly when the
fraction part has exactly `F` digits and the combined value fits in
`u32`, yielding `iv * 10^F + fv`; the integer part may have any number
of digits (subject only to the `u32` overflow checks), any fraction
length other than `F` fails, and a combination exceeding `u32::MAX`
fails rather than wrapping. -/
theorem magnitude_fraction_exact (F : Nat) (ip fp unitPart : List Char) (c : Char)
    (iv fv : Nat) (_hca : c.toNat < 128)
    (hid : ip.all Char.isDigit = true) (hfd : fp.all Char.isDigit = true)
    (hiv : parseU32 ip = some iv) (hfv : parseU32 fp = some fv) :
    (fp.length = F → iv * 10 ^ F + fv ≤ u32Max →
      parseDecimal F (ip ++ '.' :: (fp ++ '*' :: (unitPart ++ [c])))
        = some (iv * 10 ^ F + fv)) ∧
    (fp.length ≠ F →
      parseDecimal F (ip ++ '.' :: (fp ++ '*' :: (unitPart ++ [c]))) = none) ∧
    (fp.length = F → u32Max < iv * 10 ^ F + fv →
      parseDecimal F (ip ++ '.' :: (fp ++ '*' :: (unitPart ++ [c]))) = none) := by
  have hstar : '*' ∉ ip ++ '.' :: fp := by
    intro hm
    rcases List.mem_append.mp hm with h1 | h2
    · exact absurd (List.all_eq_true.mp hid _ h1) (by decide)
    · rcases List.mem_cons.mp h2 with h3 | h4
      · exact absurd h3 (by decide)
      · exact absurd (List.all_eq_true.mp hfd _ h4) (by decide)
  have hdotf : '.' ∉ fp := not_mem_of_all_digits '.' (by decide) _ hfd
  have hdrop : (ip ++ '.' :: (fp ++ '*' :: (unitPart ++ [c]))).dropLast
      = (ip ++ '.' :: fp) ++ '*' :: unitPart := by
    rw [show ip ++ '.' :: (fp ++ '*' :: (unitPart ++ [c]))
        = ((ip ++ '.' :: fp) ++ '*' :: unitPart) ++ [c] by simp]
    exact dropLast_app _ _
  have heval : splitValue (ip ++ '.' :: (fp ++ '*' :: (unitPart ++ [c])))
      = some (ip ++ '.' :: fp, unitPart) := by
    rw [splitValue_ne _ (by simp), hdrop]
    exact splitOnce_append '*' _ _ hstar
  refine ⟨?_, ?_, ?_⟩
  · intro hlen hbound
    unfold parseDecimal
    rw [heval]
    dsimp only
    rw [rsplitOnce_append '.' _ _ hdotf]
    dsimp only
    rw [if_neg (fun hne => hne hlen), hiv, hfv]
    dsimp only
    rw [if_pos (le_trans (Nat.le_add_right _ _) hbound), if_pos hbound]
  · intro hlen
    unfold parseDecimal
    rw [heval]
    dsimp only
    rw [rsplitOnce_append '.' _ _ hdotf]
    dsimp only
    rw [if_pos hlen]
  · intro hlen hover
    unfold parseDecimal
    rw [heval]
    dsimp only
    rw [rsplitOnce_append '.' _ _ hdotf]
    dsimp only
    rw [if_neg (fun hne => hne hlen), hiv, hfv]
    dsimp only
    by_cases hm : iv * 10 ^ F ≤ u32Max
    · rw [if_pos hm, if_neg (by omega)]
    · rw [if_neg hm]

/-- C2 witness: the well-formed 8/3 energy magnitude parses to
`6136 * 10^3 + 930`. -/
theorem magnitude_fraction_exact_witness :
    parseDecimal 3 (String.toList "00006136" ++ '.' ::
        (String.toList "930" ++ '*' :: (String.toList "kWh" ++ [')'])))
      = some (6136 * 10 ^ 3 + 930) :=
  (magnitude_fraction_exact 3 (String.toList "00006136") (String.toList "930")
      (String.toList "kWh") ')' 6136 930 (by decide) (by decide) (by decide)
      (by rfl) (by rfl)).1 rfl (by decide)

/-! ## C1: the decode dispatch table -/

/-- C1: decoding dispatches on the parsed Obis tuple per the fixed
mapping: `(1,0,c,d,0)` with `c` in 1..=4 maps `c` through
1:(Active,FromGrid), 2:(Active,ToGrid), 3:(Reactive,FromGrid),
4:(Reactive,ToGrid), with `d = 7` giving TotalPower and `d = 8` giving
Energy at 3 fraction digits; `(1,0,c,7,0)` with `c` in
{31,32,51,52,71,72} maps the tens group to the line and `c % 10` to
Current (1) or Voltage (2) at 1 fraction digit; the two concrete
example lines decode as the specification states. -/
theorem dispatch_table :
    (∀ body v, parseDecimal 3 body = some v →
      decode ⟨1, 0, 1, 7, 0⟩ body = .ok (.TotalPower .Active .FromGrid v) ∧
      decode ⟨1, 0, 2, 7, 0⟩ body = .ok (.TotalPower .Active .ToGrid v) ∧
      decode ⟨1, 0, 3, 7, 0⟩ body = .ok (.TotalPower .Reactive .FromGrid v) ∧
      decode ⟨1, 0, 4, 7, 0⟩ body = .ok (.TotalPower .Reactive .ToGrid v) ∧
      decode ⟨1, 0, 1, 8, 0⟩ body = .ok (.Energy .Active .FromGrid v) ∧
      decode ⟨1, 0, 2, 8, 0⟩ body = .ok (.Energy .Active .ToGrid v) ∧
      decode ⟨1, 0, 3, 8, 0⟩ body = .ok (.Energy .Reactive .FromGrid v) ∧
      decode ⟨1, 0, 4, 8, 0⟩ body = .ok (.Energy .Reactive .ToGrid v)) ∧
    (∀ body v, parseDecimal 1 body = some v → v ≤ 65535 →
      decode ⟨1, 0, 31, 7, 0⟩ body = .ok (.Current .L1 v) ∧
      decode ⟨1, 0, 32, 7, 0⟩ body = .ok (.Voltage .L1 v) ∧
      decode ⟨1, 0, 51, 7, 0⟩ body = .ok (.Current .L2 v) ∧
      decode ⟨1, 0, 52, 7, 0⟩ body = .ok (.Voltage .L2 v) ∧
      decode ⟨1, 0, 71, 7, 0⟩ body = .ok (.Current .L3 v) ∧
      decode ⟨1, 0, 72, 7, 0⟩ body = .ok (.Voltage .L3 v)) ∧
    Object.fromStr (String.toList "1-0:1.8.0(00006136.930*kWh)")
      = .ok (.Energy .Active .FromGrid 6136930) ∧
    Object.fromStr (String.toList "1-0:72.7.0(235.5*V)")
      = .ok (.Voltage .L3 2355) := by
  refine ⟨?_, ?_, rfl, rfl⟩
  · intro body v h
    have hk : parseKilo body = .ok v := by unfold parseKilo; rw [h]
    refine ⟨?_, ?_, ?_, ?_, ?_, ?_, ?_, ?_⟩ <;> simp [decode, powDir, hk]
  · intro body v h hv
    have hd : parseDeci body = .ok v := by
      unfold parseDeci
      rw [h]
      dsimp only
      rw [if_pos hv]
    refine ⟨?_, ?_, ?_, ?_, ?_, ?_⟩ <;> simp [decode, powDir, hd]

/-- C1 witness: the total-power arm applied at a concrete 4/3 body. -/
theorem dispatch_table_witness :
    decode ⟨1, 0, 1, 7, 0⟩ (String.toList "0000.806*kW)")
      = .ok (.TotalPower .Active .FromGrid 806) :=
  ((dispatch_table.1 (String.toList "0000.806*kW)") 806 (by rfl)).1)

/-! ## C6: unmatched tuples give UnrecognizedReference -/

/-- C6: a body line `obis(body)` whose Obis part parses but matches no
decode-table entry yields `UnrecognizedReference` (never
`InvalidFormat`), for every body. -/
theorem unrecognized_reference (obisStr body : List Char) (o : Obis)
    (hpar : '(' ∉ obisStr) (hobis : Obis.fromStrOpt obisStr = some o)
    (hmt : ¬ matchesTable o) :
    Object.fromStr (obisStr ++ '(' :: body) = .error .UnrecognizedReference := by
  unfold Object.fromStr
  rw [splitOnce_append '(' _ _ hpar]
  dsimp only
  rw [hobis]
  dsimp only
  unfold decode
  rw [if_neg (fun hx => hmt (Or.inl hx)),
    if_neg (fun hx => hmt (Or.inr (Or.inl hx))),
    if_neg (fun hx => hmt (Or.inr (Or.inr (Or.inl hx)))),
    if_neg (fun hx => hmt (Or.inr (Or.inr (Or.inr hx))))]

/-- C6 witness: `1-0:99.7.0` is outside the table. -/
theorem unrecognized_reference_witness :
    Object.fromStr (String.toList "1-0:99.7.0" ++ '(' :: ['x'])
      = .error .UnrecognizedReference :=
  unrecognized_reference (String.toList "1-0:99.7.0") ['x'] ⟨1, 0, 99, 7, 0⟩
    (by decide) (by rfl) (by decide)

/-! ## C5: timestamp decoding -/

theorem strGetChars_some (s : List Char) (i j : Nat) (x : List Char)
    (h : strGetChars s i j = some x) :
    i ≤ j ∧ j ≤ s.length ∧ x = (s.take j).drop i := by
  unfold strGetChars at h
  split at h
  · rename_i hc
    injection h with h1
    exact ⟨hc.1, hc.2, h1.symm⟩
  · exact absurd h (by simp)

/-- C5: timestamp decoding parses the 13-character body
`YYMMDDhhmmss{W|S}` with year offset +2000; every successful parse
comes from exactly the digit fields of the input (no clamping), is a
valid calendar date/time, has a 13th character `W` or `S` selecting the
fixed +1h or +2h UTC offset, and requires at least 13 characters; too
short inputs, invalid dates (such as Feb 29 2022 or month 13) and a bad
offset character are rejected with `InvalidFormat`, and
`221022162844W` decodes to 2022-10-22 16:28:44 at UTC+1. -/
theorem datetime_parse :
    (∀ s v, parseDatetime s = .ok v →
      13 ≤ s.length ∧
      parseTwoNum s 0 = some (v.year - 2000) ∧ 2000 ≤ v.year ∧
      (strGetChars s 2 4).bind monthFromChars = some v.month ∧
      parseTwoNum s 4 = some v.day ∧
      parseTwoNum s 6 = some v.hour ∧
      parseTwoNum s 8 = some v.minute ∧
      parseTwoNum s 10 = some v.second ∧
      1 ≤ v.day ∧ v.day ≤ daysInMonth v.year v.month ∧
      v.hour ≤ 23 ∧ v.minute ≤ 59 ∧ v.second ≤ 59 ∧
      ((strGetChars s 12 13 = some ['W'] ∧ v.offsetHours = 1) ∨
       (strGetChars s 12 13 = some ['S'] ∧ v.offsetHours = 2))) ∧
    parseDatetime (String.toList "221022162844W")
      = .ok ⟨2022, 10, 22, 16, 28, 44, 1⟩ ∧
    parseDatetime (String.toList "220229120000W") = .error .InvalidFormat ∧
    parseDatetime (String.toList "221301120000W") = .error .InvalidFormat ∧
    parseDatetime (String.toList "221022162844X") = .error .InvalidFormat ∧
    parseDatetime (String.toList "21022162844W") = .error .InvalidFormat := by
  refine ⟨?_, rfl, rfl, rfl, rfl, rfl⟩
  intro s v h
  unfold parseDatetime at h
  split at h
  · exact absurd h (by simp)
  rename_i yy hyy
  split at h
  · exact absurd h (by simp)
  rename_i mo hmo
  split at h
  · exact absurd h (by simp)
  rename_i dayv hday
  split at h
  swap
  · exact absurd h (by simp)
  rename_i hdok
  split at h
  swap
  · exact absurd h (by simp)
  rename_i hh mm ss h6 h8 h10
  split at h
  swap
  · exact absurd h (by simp)
  rename_i htok
  split at h
  swap
  · exact absurd h (by simp)
  rename_i offs hoffs
  split at h
  · rename_i hW
    subst hW
    injection h with h1
    subst h1
    exact ⟨(strGetChars_some s 12 13 _ hoffs).2.1,
      by rw [Nat.add_sub_cancel_left]; exact hyy, Nat.le_add_right 2000 yy,
      hmo, hday, h6, h8, h10, hdok.1, hdok.2, htok.1, htok.2.1, htok.2.2,
      Or.inl ⟨hoffs, rfl⟩⟩
  split at h
  · rename_i hS
    subst hS
    injection h with h1
    subst h1
    exact ⟨(strGetChars_some s 12 13 _ hoffs).2.1,
      by rw [Nat.add_sub_cancel_left]; exact hyy, Nat.le_add_right 2000 yy,
      hmo, hday, h6, h8, h10, hdok.1, hdok.2, htok.1, htok.2.1, htok.2.2,
      Or.inr ⟨hoffs, rfl⟩⟩
  · exact absurd h (by simp)

/-- C5 witness: the success branch instantiated at the specification's
concrete timestamp. -/
theorem datetime_parse_witness :
    13 ≤ (String.toList "221022162844W").length ∧
    parseTwoNum (String.toList "221022162844W") 0
      = some ((2022 : Nat) - 2000) ∧
    (1 : Nat) ≤ 22 ∧ (22 : Nat) ≤ daysInMonth 2022 10 :=
  have h := (datetime_parse.1 (String.toList "221022162844W")
    ⟨2022, 10, 22, 16, 28, 44, 1⟩ (by rfl))
  ⟨h.1, h.2.1, h.2.2.2.2.2.2.2.2.1, h.2.2.2.2.2.2.2.2.2.1⟩

/-! ## C3: `Readout::to_telegram` checksum handling -/

set_option maxHeartbeats 2000000 in
theorem ascii_utf8Valid : ∀ l : List Nat, (∀ b ∈ l, b < 128) → utf8Valid l = true := by
  intro l
  induction l with
  | nil => intro _; rfl
  | cons b bs ih =>
    intro h
    have hb : b < 128 := h b (List.mem_cons_self b bs)
    have hbs : ∀ x ∈ bs, x < 128 := fun x hx => h x (List.mem_cons_of_mem b hx)
    rw [utf8Valid]
    rw [if_pos (by omega : b ≤ 127)]
    exact ih hbs

theorem findByte_append (t : Nat) (xs ys : List Nat) (h : t ∉ xs) :
    findByte t (xs ++ t :: ys) = some xs.length := by
  induction xs with
  | nil => simp [findByte]
  | cons b bs ih =>
    have hb : b ≠ t := fun hbt => h (hbt ▸ List.mem_cons_self b bs)
    have hbs : t ∉ bs := fun hm => h (List.mem_cons_of_mem b hm)
    simp only [List.cons_append, findByte, if_neg hb, List.append_eq]
    rw [ih hbs]
    rfl

theorem take_append_succ (xs ys : List Nat) (t : Nat) :
    (xs ++ t :: ys).take (xs.length + 1) = xs ++ [t] := by
  induction xs with
  | nil => rfl
  | cons b bs ih =>
    simp only [List.cons_append, List.length_cons, List.take, List.append_eq]
    rw [ih]

theorem drop_append_succ (xs ys : List Nat) (t : Nat) :
    (xs ++ t :: ys).drop (xs.length + 1) = ys := by
  induction xs with
  | nil => rfl
  | cons b bs ih =>
    simp only [List.cons_append, List.length_cons, List.drop, List.append_eq]
    rw [ih]

theorem charBnd_ascii (l : List Nat) (k : Nat) (hk : k ≤ l.length)
    (h : ∀ b ∈ l, b < 128) : charBnd l k = true := by
  unfold charBnd
  by_cases h0 : k = 0
  · simp [h0]
  · rcases Nat.lt_or_ge k l.length with hlt | hge
    · match hget : l.get? k with
      | some b =>
        have hb : b < 128 := h b (List.get?_mem hget)
        have : isCont b = false := by
          unfold isCont
          simp only [decide_eq_false_iff_not]
          omega
        simp [hget, this]
      | none =>
        exact absurd (List.get?_eq_none.mp hget) (by omega)
    · have hk2 : k = l.length := by omega
      have hget : l.get? k = none := List.get?_eq_none.mpr (by omega)
      simp [hget, hk2]

/-- `postChecksumSplit` only ever fails with `InvalidFormat`. -/
theorem postChecksumSplit_ne (cs : Nat) (buf : List Nat) :
    postChecksumSplit cs buf ≠ .error .Checksum := by
  unfold postChecksumSplit
  split
  · simp
  · split
    · simp
    · split
      · simp
      · split
        · split
          · simp
          · simp
        · simp

/-- C3: for a readout whose buffer is `pre ++ ! ++ 4 hex bytes ++ rest`
(all ASCII, 2048 bytes, starting with `/`, first `!` after `pre`),
`to_telegram` compares the transmitted big-endian hex value against the
CRC-16/ARC of every byte from the start through the `!` inclusive; it
returns the `Checksum` error exactly when they differ, and on equality
it proceeds to the header/body split of the pre-checksum buffer. -/
theorem to_telegram_checksum (pre rest : List Nat) (c1 c2 c3 c4 t : Nat)
    (hascii : ∀ b ∈ pre ++ 33 :: c1 :: c2 :: c3 :: c4 :: rest, b < 128)
    (_hlen : (pre ++ 33 :: c1 :: c2 :: c3 :: c4 :: rest).length = 2048)
    (_hslash : pre.head? = some 47)
    (hnb : 33 ∉ pre)
    (hhex : parseHexU16 [c1, c2, c3, c4] = some t) :
    (toTelegram ⟨pre ++ 33 :: c1 :: c2 :: c3 :: c4 :: rest⟩ = .error .Checksum
      ↔ t ≠ crc16 (pre ++ [33])) ∧
    (t = crc16 (pre ++ [33]) →
      toTelegram ⟨pre ++ 33 :: c1 :: c2 :: c3 :: c4 :: rest⟩
        = postChecksumSplit (crc16 (pre ++ [33])) (pre ++ [33])) := by
  have hv : utf8Valid (pre ++ 33 :: c1 :: c2 :: c3 :: c4 :: rest) = true :=
    ascii_utf8Valid _ hascii
  have hfour : byteGet (c1 :: c2 :: c3 :: c4 :: rest) 0 4 = some [c1, c2, c3, c4] := by
    unfold byteGet
    rw [if_pos]
    · rfl
    · refine ⟨by omega, by simp [charBnd], ?_⟩
      apply charBnd_ascii
      · simp only [List.length_cons]; omega
      · intro b hb
        exact hascii b (List.mem_append_right pre (List.mem_cons_of_mem 33 hb))
  have heval : toTelegram ⟨pre ++ 33 :: c1 :: c2 :: c3 :: c4 :: rest⟩
      = (if t ≠ crc16 (pre ++ [33]) then Except.error Error.Checksum
          else postChecksumSplit (crc16 (pre ++ [33])) (pre ++ [33])) := by
    unfold toTelegram
    rw [if_pos hv, findByte_append 33 pre _ hnb]
    dsimp only
    rw [take_append_succ, drop_append_succ, hfour]
    dsimp only
    rw [hhex]
  refine ⟨?_, ?_⟩
  · rw [heval]
    by_cases ht : t = crc16 (pre ++ [33])
    · rw [if_neg (by simpa using ht)]
      simp only [iff_false, ne_eq, not_not]
      constructor
      · intro hcon
        exact absurd hcon (postChecksumSplit_ne _ _)
      · intro hcon
        exact absurd ht hcon
    · rw [if_pos ht]
      simp [ht]
  · intro ht
    rw [heval, if_neg (by simpa using ht)]

/-- C3 witness: a mismatched trailer (`0000` against the CRC of `/!`)
produces the `Checksum` error. -/
theorem to_telegram_checksum_witness :
    toTelegram ⟨[47] ++ 33 :: 48 :: 48 :: 48 :: 48 :: List.replicate 2042 0⟩
      = .error .Checksum :=
  (to_telegram_checksum [47] (List.replicate 2042 0) 48 48 48 48 0
    (by
      intro b hb
      rw [List.cons_append, List.nil_append, List.mem_cons, List.mem_cons,
        List.mem_cons, List.mem_cons, List.mem_cons, List.mem_cons] at hb
      rcases hb with h | h | h | h | h | h | h
      · omega
      · omega
      · omega
      · omega
      · omega
      · omega
      · have := List.eq_of_mem_replicate h
        omega)
    (by
      rw [List.cons_append, List.nil_append, List.length_cons, List.length_cons,
        List.length_cons, List.length_cons, List.length_cons, List.length_cons,
        List.length_replicate])
    (by rfl) (by decide) (by rfl)).1.mpr (by decide)

/-! ## C7: the synchronous `Reader` -/

theorem skipToSlash_append (pre rest : List Nat) (h : 47 ∉ pre) :
    skipToSlash (pre ++ 47 :: rest) = some rest := by
  induction pre with
  | nil => simp [skipToSlash]
  | cons b bs ih =>
    have hb : b ≠ 47 := fun hbc => h (hbc ▸ List.mem_cons_self b bs)
    have hbs : 47 ∉ bs := fun hm => h (List.mem_cons_of_mem b hm)
    simp only [List.cons_append, skipToSlash, if_neg hb, List.append_eq]
    exact ih hbs

theorem skipToSlash_none (l : List Nat) (h : 47 ∉ l) : skipToSlash l = none := by
  induction l with
  | nil => rfl
  | cons b bs ih =>
    have hb : b ≠ 47 := fun hbc => h (hbc ▸ List.mem_cons_self b bs)
    have hbs : 47 ∉ bs := fun hm => h (List.mem_cons_of_mem b hm)
    simp only [skipToSlash, if_neg hb]
    exact ih hbs

theorem writeSync_ok (buf : List Nat) (b : Nat) (h : buf.length < 2048) :
    writeSync buf b = some (buf ++ [b]) := by
  unfold writeSync
  rw [if_neg (by omega)]

theorem fillSync_success (mid : List Nat) :
    ∀ (buf : List Nat) (c1 c2 c3 c4 : Nat) (rest : List Nat),
    33 ∉ mid → buf.length + mid.length + 5 ≤ 2048 →
    fillSync buf (mid ++ 33 :: c1 :: c2 :: c3 :: c4 :: rest)
      = some (mkReadout (buf ++ mid ++ 33 :: [c1, c2, c3, c4]), rest) := by
  induction mid with
  | nil =>
    intro buf c1 c2 c3 c4 rest _ hlen
    simp only [List.nil_append]
    rw [fillSync]
    rw [writeSync_ok buf 33 (by omega)]
    dsimp only
    rw [if_pos rfl]
    rw [writeSync_ok (buf ++ [33]) c1 (by
      simp only [List.length_append, List.length_cons, List.length_nil]; omega)]
    dsimp only
    rw [writeSync_ok (buf ++ [33] ++ [c1]) c2 (by
      simp only [List.length_append, List.length_cons, List.length_nil]; omega)]
    dsimp only
    rw [writeSync_ok (buf ++ [33] ++ [c1] ++ [c2]) c3 (by
      simp only [List.length_append, List.length_cons, List.length_nil]; omega)]
    dsimp only
    rw [writeSync_ok (buf ++ [33] ++ [c1] ++ [c2] ++ [c3]) c4 (by
      simp only [List.length_append, List.length_cons, List.length_nil]; omega)]
    dsimp only
    simp [List.append_assoc]
  | cons b bs ih =>
    intro buf c1 c2 c3 c4 rest hmem hlen
    have hb : b ≠ 33 := fun hbc => hmem (hbc ▸ List.mem_cons_self b bs)
    have hbs : 33 ∉ bs := fun hm => hmem (List.mem_cons_of_mem b hm)
    simp only [List.cons_append]
    rw [fillSync]
    rw [writeSync_ok buf b (by simp only [List.length_cons] at hlen; omega)]
    dsimp only
    rw [if_neg hb]
    rw [ih (buf ++ [b]) c1 c2 c3 c4 rest hbs
      (by simp only [List.length_append, List.length_cons, List.length_nil] at hlen ⊢; omega)]
    simp [List.append_assoc]

theorem fillSync_overflow (l : List Nat) : ∀ buf : List Nat,
    2048 ≤ buf.length + l.length → 33 ∉ l.take (2048 - buf.length) →
    fillSync buf l = none := by
  induction l with
  | nil => intro buf _ _; rfl
  | cons b bs ih =>
    intro buf hlen hmem
    by_cases hfull : 2048 ≤ buf.length
    · simp only [fillSync, writeSync]
      rw [if_pos hfull]
    · have hksucc : 2048 - buf.length = (2047 - buf.length) + 1 := by omega
      have hb : b ≠ 33 := by
        intro he
        apply hmem
        rw [hksucc, List.take_succ_cons]
        exact he ▸ List.mem_cons_self b _
      simp only [fillSync, writeSync]
      rw [if_neg hfull]
      dsimp only
      rw [if_neg hb]
      apply ih
      · simp only [List.length_append, List.length_cons, List.length_nil] at hlen ⊢
        omega
      · intro hm
        apply hmem
        rw [hksucc, List.take_succ_cons]
        apply List.mem_cons_of_mem
        have : 2048 - (buf ++ [b]).length = 2047 - buf.length := by
          simp only [List.length_append, List.length_cons, List.length_nil]
          omega
        rw [this] at hm
        exact hm

/-- C7: one call of the synchronous reader discards bytes up to and
including the first `/` (which becomes byte 0 of the frame), copies
subsequent bytes verbatim, and after copying a `!` copies exactly four
more bytes and yields the frame with the remaining input; if the
2048-byte buffer fills before the `!`, or no `/` ever arrives, the call
yields nothing. -/
theorem reader_next_spec :
    (∀ (pre mid rest : List Nat) (c1 c2 c3 c4 : Nat),
      47 ∉ pre → 33 ∉ mid → mid.length ≤ 2042 →
      readerNext (pre ++ 47 :: (mid ++ 33 :: c1 :: c2 :: c3 :: c4 :: rest))
        = some (mkReadout (47 :: (mid ++ 33 :: [c1, c2, c3, c4])), rest)) ∧
    (∀ (pre mid : List Nat), 47 ∉ pre → 2047 ≤ mid.length → 33 ∉ mid.take 2047 →
      readerNext (pre ++ 47 :: mid) = none) ∧
    (∀ l, 47 ∉ l → readerNext l = none) := by
  refine ⟨?_, ?_, ?_⟩
  · intro pre mid rest c1 c2 c3 c4 hpre hmid hlen
    unfold readerNext
    rw [skipToSlash_append _ _ hpre]
    dsimp only
    rw [fillSync_success mid [47] c1 c2 c3 c4 rest hmid
      (by simp only [List.length_cons, List.length_nil]; omega)]
    simp
  · intro pre mid hpre hlen hmem
    unfold readerNext
    rw [skipToSlash_append _ _ hpre]
    dsimp only
    apply fillSync_overflow
    · simp only [List.length_cons, List.length_nil]; omega
    · simpa using hmem
  · intro l hl
    unfold readerNext
    rw [skipToSlash_none l hl]

/-- C7 witness: the success case at a minimal concrete frame. -/
theorem reader_next_spec_witness :
    readerNext ([] ++ 47 :: ([] ++ 33 :: 1 :: 2 :: 3 :: 4 :: [9]))
      = some (mkReadout (47 :: ([] ++ 33 :: [1, 2, 3, 4])), [9]) :=
  reader_next_spec.1 [] [] [9] 1 2 3 4 (by decide) (by decide) (by decide)

/-! ## C4: chunk-invariance of the incremental scanner

Both the single-chunk and the many-chunk runs are related to the
byte-at-a-time machine `runBytes`; equality of the two runs follows. -/

theorem totalBytes_nil : totalBytes [] = 0 := rfl

theorem totalBytes_cons (c : List Nat) (rest : List (List Nat)) :
    totalBytes (c :: rest) = c.length + totalBytes rest := by
  simp [totalBytes]

theorem byteStep_none (b : Nat) : byteStep none b = (idleNext b, none) := rfl

theorem byteStep_over (st : BufState) (b : Nat) (h : overflowed st = true) :
    byteStep (some st) b = (idleNext b, none) := by
  unfold byteStep
  dsimp only
  rw [if_pos h]

theorem byteStep_comp (st : BufState) (b : Nat) (hov : overflowed st = false)
    (hc : completedSt st = true) :
    byteStep (some st) b = (idleNext b, some (mkReadout (st.data ++ [b]))) := by
  unfold byteStep
  dsimp only
  rw [if_neg (by simp [hov]), if_pos hc]

theorem byteStep_push (st : BufState) (b : Nat) (hov : overflowed st = false)
    (hc : completedSt st = false) :
    byteStep (some st) b = (some (pushByte st b), none) := by
  unfold byteStep
  dsimp only
  rw [if_neg (by simp [hov]), if_neg (by simp [hc])]

theorem runBytes_over (st : BufState) (h : overflowed st = true) (l : List Nat) :
    runBytes (some st) l = runBytes none l := by
  cases l with
  | nil => rfl
  | cons b bs =>
    rw [runBytes, runBytes, byteStep_over st b h, byteStep_none]

theorem runBytes_no47 (l : List Nat) (h : 47 ∉ l) : runBytes none l = [] := by
  induction l with
  | nil => rfl
  | cons b bs ih =>
    have hb : b ≠ 47 := fun hbc => h (hbc ▸ List.mem_cons_self b bs)
    have hbs : 47 ∉ bs := fun hm => h (List.mem_cons_of_mem b hm)
    rw [runBytes, byteStep_none]
    have hid : idleNext b = none := by unfold idleNext; rw [if_neg hb]
    rw [hid]
    exact ih hbs

theorem runBytes_skip47 (pre : List Nat) (t : List Nat) (hp : 47 ∉ pre) :
    runBytes none (pre ++ t) = runBytes none t := by
  induction pre with
  | nil => rfl
  | cons b bs ih =>
    have hb : b ≠ 47 := fun hbc => hp (hbc ▸ List.mem_cons_self b bs)
    have hbs : 47 ∉ bs := fun hm => hp (List.mem_cons_of_mem b hm)
    rw [List.cons_append, runBytes, byteStep_none]
    have hid : idleNext b = none := by unfold idleNext; rw [if_neg hb]
    rw [hid]
    exact ih hbs

theorem runBytes_fresh47 (suf : List Nat) :
    runBytes none (47 :: suf) = runBytes (some ⟨[], none⟩) (47 :: suf) := by
  rw [runBytes, runBytes, byteStep_none,
    byteStep_push ⟨[], none⟩ 47 (by decide) (by decide)]
  have h1 : idleNext 47 = some ⟨[47], none⟩ := by decide
  have h2 : pushByte ⟨[], none⟩ 47 = ⟨[47], none⟩ := by decide
  rw [h1, h2]

theorem fillBytes_inr (l : List Nat) :
    ∀ (st : BufState) (ev : Option Readout) (leftover : List Nat),
    fillBytes st l = .inr (ev, leftover) → leftover.length ≤ l.length ∧ leftover ≠ [] := by
  induction l with
  | nil =>
    intro st ev leftover h
    exact absurd h (by simp [fillBytes])
  | cons b bs ih =>
    intro st ev leftover h
    rw [fillBytes] at h
    by_cases hov : overflowed st = true
    · rw [if_pos hov] at h
      simp only [Sum.inr.injEq, Prod.mk.injEq] at h
      obtain ⟨_, hl⟩ := h
      subst hl
      exact ⟨Nat.le_refl _, by simp⟩
    · rw [if_neg hov] at h
      by_cases hc : completedSt st = true
      · rw [if_pos hc] at h
        simp only [Sum.inr.injEq, Prod.mk.injEq] at h
        obtain ⟨_, hl⟩ := h
        subst hl
        exact ⟨Nat.le_refl _, by simp⟩
      · rw [if_neg hc] at h
        obtain ⟨h1, h2⟩ := ih (pushByte st b) ev leftover h
        exact ⟨Nat.le_trans h1 (by simp), h2⟩

theorem fillBytes_run (l : List Nat) : ∀ (st : BufState) (t : List Nat),
    (∀ st1, fillBytes st l = .inl st1 →
      runBytes (some st) (l ++ t) = runBytes (some st1) t) ∧
    (∀ leftover, fillBytes st l = .inr (none, leftover) →
      runBytes (some st) (l ++ t) = runBytes none (leftover ++ t)) ∧
    (∀ r leftover, fillBytes st l = .inr (some r, leftover) →
      runBytes (some st) (l ++ t) = r :: runBytes none (leftover ++ t)) := by
  induction l with
  | nil =>
    intro st t
    refine ⟨?_, ?_, ?_⟩
    · intro st1 h
      simp only [fillBytes, Sum.inl.injEq] at h
      subst h
      rw [List.nil_append]
    · intro leftover h
      exact absurd h (by simp [fillBytes])
    · intro r leftover h
      exact absurd h (by simp [fillBytes])
  | cons b bs ih =>
    intro st t
    by_cases hov : overflowed st = true
    · have hf : fillBytes st (b :: bs) = .inr (none, b :: bs) := by
        rw [fillBytes, if_pos hov]
      refine ⟨?_, ?_, ?_⟩
      · intro st1 h
        rw [hf] at h
        exact absurd h (by simp)
      · intro leftover h
        rw [hf] at h
        simp only [Sum.inr.injEq, Prod.mk.injEq] at h
        obtain ⟨_, hl⟩ := h
        subst hl
        exact runBytes_over st hov _
      · intro r leftover h
        rw [hf] at h
        simp at h
    · by_cases hc : completedSt st = true
      · have hf : fillBytes st (b :: bs)
            = .inr (some (mkReadout (st.data ++ [b])), b :: bs) := by
          rw [fillBytes, if_neg hov, if_pos hc]
        refine ⟨?_, ?_, ?_⟩
        · intro st1 h
          rw [hf] at h
          exact absurd h (by simp)
        · intro leftover h
          rw [hf] at h
          simp at h
        · intro r leftover h
          rw [hf] at h
          simp only [Sum.inr.injEq, Prod.mk.injEq, Option.some.injEq] at h
          obtain ⟨hr, hl⟩ := h
          subst hr
          subst hl
          rw [List.cons_append, runBytes,
            byteStep_comp st b (by simpa using hov) hc]
          dsimp only
          rw [runBytes, byteStep_none]
      · have hf : fillBytes st (b :: bs) = fillBytes (pushByte st b) bs := by
          rw [fillBytes, if_neg hov, if_neg hc]
        obtain ⟨ih1, ih2, ih3⟩ := ih (pushByte st b) t
        have hstep : runBytes (some st) ((b :: bs) ++ t)
            = runBytes (some (pushByte st b)) (bs ++ t) := by
          rw [List.cons_append, runBytes,
            byteStep_push st b (by simpa using hov) (by simpa using hc)]
        refine ⟨?_, ?_, ?_⟩
        · intro st1 h
          rw [hf] at h
          rw [hstep]
          exact ih1 st1 h
        · intro leftover h
          rw [hf] at h
          rw [hstep]
          exact ih2 leftover h
        · intro r leftover h
          rw [hf] at h
          rw [hstep]
          exact ih3 r leftover h

theorem fillLoop_run (chunks : List (List Nat)) : ∀ st : BufState,
    (∀ c ∈ chunks, c ≠ []) →
    (fillLoop st chunks = .eof → runBytes (some st) chunks.join = []) ∧
    (∀ out, fillLoop st chunks = .overflow out →
      runBytes (some st) chunks.join = runBytes none out.join ∧ (∀ c ∈ out, c ≠ [])) ∧
    (∀ r out, fillLoop st chunks = .frame r out →
      runBytes (some st) chunks.join = r :: runBytes none out.join ∧ (∀ c ∈ out, c ≠ [])) := by
  induction chunks with
  | nil =>
    intro st _
    refine ⟨fun _ => rfl, ?_, ?_⟩
    · intro out h
      exact absurd h (by simp [fillLoop])
    · intro r out h
      exact absurd h (by simp [fillLoop])
  | cons c rest ih =>
    intro st hne
    have hc0 : c ≠ [] := hne c (List.mem_cons_self c rest)
    have hrest : ∀ x ∈ rest, x ≠ [] := fun x hx => hne x (List.mem_cons_of_mem c hx)
    have hjoin : (c :: rest).join = c ++ rest.join := by simp
    have hfl : fillLoop st (c :: rest)
        = match fillBytes st c with
          | .inl st1 => fillLoop st1 rest
          | .inr (none, leftover) => .overflow (leftover :: rest)
          | .inr (some r, leftover) => .frame r (leftover :: rest) := by
      rw [fillLoop, if_neg hc0]
    obtain ⟨fb1, fb2, fb3⟩ := fillBytes_run c st rest.join
    cases hfb : fillBytes st c with
    | inl st1 =>
      rw [hfb] at hfl
      obtain ⟨ihe, iho, ihf⟩ := ih st1 hrest
      refine ⟨?_, ?_, ?_⟩
      · intro h
        rw [hfl] at h
        rw [hjoin, fb1 st1 hfb]
        exact ihe h
      · intro out h
        rw [hfl] at h
        rw [hjoin, fb1 st1 hfb]
        exact iho out h
      · intro r out h
        rw [hfl] at h
        rw [hjoin, fb1 st1 hfb]
        exact ihf r out h
    | inr p =>
      obtain ⟨ev, leftover⟩ := p
      obtain ⟨_, hlne⟩ := fillBytes_inr c st ev leftover hfb
      cases ev with
      | none =>
        rw [hfb] at hfl
        refine ⟨?_, ?_, ?_⟩
        · intro h
          rw [hfl] at h
          exact absurd h (by simp)
        · intro out h
          rw [hfl] at h
          injection h with h1
          subst h1
          refine ⟨?_, ?_⟩
          · rw [hjoin, fb2 leftover hfb]
            simp
          · intro x hx
            rcases List.mem_cons.mp hx with h1 | h2
            · subst h1; exact hlne
            · exact hrest x h2
        · intro r out h
          rw [hfl] at h
          exact absurd h (by simp)
      | some r0 =>
        rw [hfb] at hfl
        refine ⟨?_, ?_, ?_⟩
        · intro h
          rw [hfl] at h
          exact absurd h (by simp)
        · intro out h
          rw [hfl] at h
          exact absurd h (by simp)
        · intro r out h
          rw [hfl] at h
          injection h with h1 h2
          subst h1
          subst h2
          refine ⟨?_, ?_⟩
          · rw [hjoin, fb3 r0 leftover hfb]
            simp
          · intro x hx
            rcases List.mem_cons.mp hx with h1 | h2
            · subst h1; exact hlne
            · exact hrest x h2

theorem findByte_none (t : Nat) : ∀ l : List Nat, findByte t l = none → t ∉ l := by
  intro l
  induction l with
  | nil => intro _; simp
  | cons b bs ih =>
    intro h
    rw [findByte] at h
    by_cases hb : b = t
    · rw [if_pos hb] at h
      exact absurd h (by simp)
    · rw [if_neg hb] at h
      intro hm
      rcases List.mem_cons.mp hm with h1 | h2
      · exact hb h1.symm
      · cases hfb : findByte t bs with
        | none => exact ih hfb h2
        | some j => rw [hfb] at h; exact absurd h (by simp)

theorem findByte_spec (t : Nat) : ∀ (l : List Nat) (i : Nat), findByte t l = some i →
    ∃ pre suf, l = pre ++ t :: suf ∧ t ∉ pre ∧ l.drop i = t :: suf := by
  intro l
  induction l with
  | nil => intro i h; exact absurd h (by simp [findByte])
  | cons b bs ih =>
    intro i h
    rw [findByte] at h
    by_cases hb : b = t
    · rw [if_pos hb] at h
      injection h with h1
      subst hb
      subst h1
      exact ⟨[], bs, rfl, by simp, rfl⟩
    · rw [if_neg hb] at h
      cases hfb : findByte t bs with
      | none => rw [hfb] at h; exact absurd h (by simp)
      | some j =>
        rw [hfb] at h
        simp at h
        subst h
        obtain ⟨pre, suf, hl, hnp, hdrop⟩ := ih j hfb
        refine ⟨b :: pre, suf, by rw [List.cons_append, ← hl], ?_, ?_⟩
        · intro hm
          rcases List.mem_cons.mp hm with h1 | h2
          · exact hb h1.symm
          · exact hnp h2
        · rw [List.drop_succ_cons]
          exact hdrop

theorem scanToNext_spec (chunks : List (List Nat)) :
    (∀ c ∈ chunks, c ≠ []) →
    (scanToNext chunks = none → 47 ∉ chunks.join) ∧
    (∀ rest, scanToNext chunks = some rest →
      ∃ pre suf, chunks.join = pre ++ 47 :: suf ∧ 47 ∉ pre ∧
        rest.join = 47 :: suf ∧ (∀ c ∈ rest, c ≠ []) ∧
        totalBytes rest ≤ totalBytes chunks) := by
  induction chunks with
  | nil =>
    intro _
    refine ⟨fun _ => by simp, ?_⟩
    intro rest h
    exact absurd h (by simp [scanToNext])
  | cons c cs ih =>
    intro hne
    have hc0 : c ≠ [] := hne c (List.mem_cons_self c cs)
    have hcs : ∀ x ∈ cs, x ≠ [] := fun x hx => hne x (List.mem_cons_of_mem c hx)
    have hsc : scanToNext (c :: cs)
        = match findByte 47 c with
          | some i => some (c.drop i :: cs)
          | none => scanToNext cs := by
      rw [scanToNext, if_neg hc0]
    cases hfb : findByte 47 c with
    | some i =>
      rw [hfb] at hsc
      obtain ⟨pre, suf, hl, hnp, hdrop⟩ := findByte_spec 47 c i hfb
      refine ⟨?_, ?_⟩
      · intro h
        rw [hsc] at h
        exact absurd h (by simp)
      · intro rest h
        rw [hsc] at h
        injection h with h1
        subst h1
        refine ⟨pre, suf ++ cs.join, ?_, hnp, ?_, ?_, ?_⟩
        · simp [hl, List.append_assoc]
        · simp [hdrop]
        · intro x hx
          rcases List.mem_cons.mp hx with h1 | h2
          · subst h1
            rw [hdrop]
            simp
          · exact hcs x h2
        · rw [totalBytes_cons, totalBytes_cons]
          have hdl : (c.drop i).length = c.length - i := List.length_drop i c
          omega
    | none =>
      rw [hfb] at hsc
      have hnc : 47 ∉ c := findByte_none 47 c hfb
      obtain ⟨ih1, ih2⟩ := ih hcs
      refine ⟨?_, ?_⟩
      · intro h
        rw [hsc] at h
        intro hm
        rw [show (c :: cs).join = c ++ cs.join by simp] at hm
        rcases List.mem_append.mp hm with h1 | h2
        · exact hnc h1
        · exact ih1 h h2
      · intro rest h
        rw [hsc] at h
        obtain ⟨pre, suf, hj, hnp, hrj, hrne, hle⟩ := ih2 rest h
        refine ⟨c ++ pre, suf, ?_, ?_, hrj, hrne, ?_⟩
        · simp [hj, List.append_assoc]
        · intro hm
          rcases List.mem_append.mp hm with h1 | h2
          · exact hnc h1
          · exact hnp h2
        · rw [totalBytes_cons]
          omega

theorem fillLoop_le (chunks : List (List Nat)) : ∀ (st : BufState) (out : List (List Nat)),
    (fillLoop st chunks = .overflow out ∨ ∃ r, fillLoop st chunks = .frame r out) →
    totalBytes out ≤ totalBytes chunks := by
  induction chunks with
  | nil =>
    intro st out h
    rcases h with h | ⟨r, h⟩ <;> exact absurd h (by simp [fillLoop])
  | cons c rest ih =>
    intro st out h
    by_cases hc0 : c = []
    · subst hc0
      rw [fillLoop, if_pos rfl] at h
      rcases h with h | ⟨r, h⟩ <;> exact absurd h (by simp)
    · rw [fillLoop, if_neg hc0] at h
      cases hfb : fillBytes st c with
      | inl st1 =>
        rw [hfb] at h
        have := ih st1 out h
        rw [totalBytes_cons]
        omega
      | inr p =>
        obtain ⟨ev, leftover⟩ := p
        obtain ⟨hlen, _⟩ := fillBytes_inr c st ev leftover hfb
        cases ev with
        | none =>
          rw [hfb] at h
          rcases h with h | ⟨r, h⟩
          · injection h with h1
            subst h1
            rw [totalBytes_cons, totalBytes_cons]
            omega
          · exact absurd h (by simp)
        | some r0 =>
          rw [hfb] at h
          rcases h with h | ⟨r, h⟩
          · exact absurd h (by simp)
          · injection h with h1 h2
            subst h2
            rw [totalBytes_cons, totalBytes_cons]
            omega

theorem fillLoop_fresh_lt (c : List Nat) (rest out : List (List Nat)) (hc0 : c ≠ [])
    (h : fillLoop ⟨[], none⟩ (c :: rest) = .overflow out ∨
         ∃ r, fillLoop ⟨[], none⟩ (c :: rest) = .frame r out) :
    totalBytes out < totalBytes (c :: rest) := by
  cases c with
  | nil => exact absurd rfl hc0
  | cons b bs =>
    have hfb0 : fillBytes ⟨[], none⟩ (b :: bs) = fillBytes (pushByte ⟨[], none⟩ b) bs := by
      rw [fillBytes, if_neg (by decide), if_neg (by decide)]
    rw [fillLoop, if_neg (by simp), hfb0] at h
    cases hfb : fillBytes (pushByte ⟨[], none⟩ b) bs with
    | inl st1 =>
      rw [hfb] at h
      have := fillLoop_le rest st1 out h
      rw [totalBytes_cons, List.length_cons]
      omega
    | inr p =>
      obtain ⟨ev, leftover⟩ := p
      obtain ⟨hlen, _⟩ := fillBytes_inr bs (pushByte ⟨[], none⟩ b) ev leftover hfb
      cases ev with
      | none =>
        rw [hfb] at h
        rcases h with h | ⟨r, h⟩
        · injection h with h1
          subst h1
          rw [totalBytes_cons, totalBytes_cons, List.length_cons]
          omega
        · exact absurd h (by simp)
      | some r0 =>
        rw [hfb] at h
        rcases h with h | ⟨r, h⟩
        · exact absurd h (by simp)
        · injection h with h1 h2
          subst h2
          rw [totalBytes_cons, totalBytes_cons, List.length_cons]
          omega

theorem nextFromIdleF_run : ∀ (fuel : Nat) (chunks : List (List Nat)),
    totalBytes chunks < fuel → (∀ c ∈ chunks, c ≠ []) →
    (nextFromIdleF fuel chunks = none → runBytes none chunks.join = []) ∧
    (∀ r out, nextFromIdleF fuel chunks = some (r, out) →
      runBytes none chunks.join = r :: runBytes none out.join ∧
      (∀ c ∈ out, c ≠ []) ∧ totalBytes out < totalBytes chunks) := by
  intro fuel
  induction fuel with
  | zero =>
    intro chunks hlt
    exact absurd hlt (by omega)
  | succ fuel ih =>
    intro chunks hlt hne
    obtain ⟨sc1, sc2⟩ := scanToNext_spec chunks hne
    cases hscan : scanToNext chunks with
    | none =>
      have hnf : nextFromIdleF (fuel + 1) chunks = none := by
        rw [nextFromIdleF, hscan]
      refine ⟨fun _ => runBytes_no47 _ (sc1 hscan), ?_⟩
      intro r out h
      rw [hnf] at h
      exact absurd h (by simp)
    | some rest =>
      obtain ⟨pre, suf, hj, hnp, hrj, hrne, hle⟩ := sc2 rest hscan
      have hrun0 : runBytes none chunks.join = runBytes (some ⟨[], none⟩) rest.join := by
        rw [hj, runBytes_skip47 pre (47 :: suf) hnp, runBytes_fresh47 suf, ← hrj]
      have hnf : nextFromIdleF (fuel + 1) chunks
          = match fillLoop ⟨[], none⟩ rest with
            | .eof => none
            | .frame r out => some (r, out)
            | .overflow out => nextFromIdleF fuel out := by
        rw [nextFromIdleF, hscan]
      obtain ⟨fle, flo, flf⟩ := fillLoop_run rest ⟨[], none⟩ hrne
      cases hfl : fillLoop ⟨[], none⟩ rest with
      | eof =>
        have hnf2 : nextFromIdleF (fuel + 1) chunks = none := by rw [hnf, hfl]
        refine ⟨fun _ => ?_, ?_⟩
        · rw [hrun0]
          exact fle hfl
        · intro r out h
          rw [hnf2] at h
          exact absurd h (by simp)
      | frame r0 out0 =>
        have hnf2 : nextFromIdleF (fuel + 1) chunks = some (r0, out0) := by rw [hnf, hfl]
        obtain ⟨heq, hone⟩ := flf r0 out0 hfl
        have hstrict : totalBytes out0 < totalBytes rest := by
          cases rest with
          | nil => simp at hrj
          | cons c cs =>
            exact fillLoop_fresh_lt c cs out0 (hrne c (List.mem_cons_self c cs))
              (Or.inr ⟨r0, hfl⟩)
        refine ⟨?_, ?_⟩
        · intro h
          rw [hnf2] at h
          exact absurd h (by simp)
        · intro r out h
          rw [hnf2] at h
          simp only [Option.some.injEq, Prod.mk.injEq] at h
          obtain ⟨h2, h3⟩ := h
          subst h2
          subst h3
          exact ⟨by rw [hrun0, heq], hone, by omega⟩
      | overflow out1 =>
        have hnf2 : nextFromIdleF (fuel + 1) chunks = nextFromIdleF fuel out1 := by
          rw [hnf, hfl]
        obtain ⟨heq, hone1⟩ := flo out1 hfl
        have hstrict1 : totalBytes out1 < totalBytes rest := by
          cases rest with
          | nil => simp at hrj
          | cons c cs =>
            exact fillLoop_fresh_lt c cs out1 (hrne c (List.mem_cons_self c cs))
              (Or.inl hfl)
        have hlt1 : totalBytes out1 < fuel := by omega
        obtain ⟨ihn, ihs⟩ := ih out1 hlt1 hone1
        refine ⟨?_, ?_⟩
        · intro h
          rw [hnf2] at h
          rw [hrun0, heq]
          exact ihn h
        · intro r out h
          rw [hnf2] at h
          obtain ⟨e1, e2, e3⟩ := ihs r out h
          refine ⟨?_, e2, by omega⟩
          rw [hrun0, heq]
          exact e1

theorem readAllF_run : ∀ (fuel : Nat) (chunks : List (List Nat)),
    totalBytes chunks < fuel → (∀ c ∈ chunks, c ≠ []) →
    readAllF fuel chunks = runBytes none chunks.join := by
  intro fuel
  induction fuel with
  | zero =>
    intro chunks hlt
    exact absurd hlt (by omega)
  | succ fuel ih =>
    intro chunks hlt hne
    obtain ⟨n1, n2⟩ := nextFromIdleF_run (totalBytes chunks + 1) chunks (by omega) hne
    cases hnf : nextFromIdleF (totalBytes chunks + 1) chunks with
    | none =>
      rw [readAllF, hnf]
      exact (n1 hnf).symm
    | some p =>
      obtain ⟨r, out⟩ := p
      obtain ⟨e1, e2, e3⟩ := n2 r out hnf
      rw [readAllF, hnf]
      dsimp only
      rw [ih out (by omega) e2, e1]

/-- C4: for every finite byte stream, feeding the incremental scanner
any split of the stream into (nonempty) fill-buffer chunks — including
splits immediately before a `/`, inside the 4 checksum bytes, or at
frame boundaries — yields exactly the readout sequence of the
single-chunk run. -/
theorem async_chunk_invariance (chunks : List (List Nat))
    (h : ∀ c ∈ chunks, c ≠ []) :
    readAll chunks = readAll [chunks.join] := by
  by_cases hnil : chunks.join = []
  · have hc : chunks = [] := by
      cases chunks with
      | nil => rfl
      | cons c cs =>
        exfalso
        have hc0 : c ≠ [] := h c (List.mem_cons_self c cs)
        rw [show (c :: cs).join = c ++ cs.join by simp] at hnil
        rcases List.append_eq_nil.mp hnil with ⟨h1, _⟩
        exact hc0 h1
    subst hc
    rfl
  · unfold readAll
    rw [readAllF_run _ _ (by omega) h]
    have hone : ∀ c ∈ [chunks.join], c ≠ [] := by
      intro c hc
      rw [List.mem_singleton] at hc
      subst hc
      exact hnil
    rw [readAllF_run _ _ (by omega) hone]
    simp

/-- C4 witness: a frame split across two chunks (the split falling
between the `/` and the `!`) yields the same readouts as the one-chunk
stream. -/
theorem async_chunk_invariance_witness :
    readAll [[47], [33, 48, 48, 48, 48]] = readAll [[47, 33, 48, 48, 48, 48]] := by
  have h := async_chunk_invariance [[47], [33, 48, 48, 48, 48]] (by decide)
  have h2 : ([[47], [33, 48, 48, 48, 48]] : List (List Nat)).join
      = [47, 33, 48, 48, 48, 48] := rfl
  rw [h2] at h
  exact h
